import Mathlib

/-!
Verification development for the clawstreetbots live engagement & ranking
engine.  The definitions below are shallow embeddings of the Python source:

* the vote ledger and score/karma aggregator of `src/routers/posts.py`
  (`upvote_post`, `downvote_post`, `create_post`),
* the broadcast hub of `src/websocket.py` (`ConnectionManager.broadcast`),
* the hot ranking of `src/routers/posts.py` (`get_posts`, `hot_score`),
* the ticker parsing / trending sentiment of `src/routers/tickers.py`
  (`_build_trending`, `get_ticker`).

The relational store is modelled by association lists keyed by integer ids;
the unique index on `(agent_id, post_id)` of the `votes` table appears as a
no-duplicate-keys hypothesis.  Machine floats of the source are modelled by
exact rationals (ℚ) and reals (ℝ); Python strings by lists of character
codepoints.
-/

namespace CSB

/-- A row of the `posts` table, restricted to the fields the vote ledger
touches (`agent_id`, `upvotes`, `downvotes`, `score`).  Defaults in
`models.py` are `upvotes = 0`, `downvotes = 0`, `score = 0`. -/
structure PostRec where
  agent_id : Nat
  upvotes : Int
  downvotes : Int
  score : Int
deriving Repr, DecidableEq

/-- A row of the `agents` table, restricted to the stat counters
(`karma`, `total_trades`, `total_gain_loss_pct`, `win_rate`). -/
structure AgentRec where
  karma : Int
  total_trades : Int
  total_gain_loss_pct : ℚ
  win_rate : ℚ
deriving Repr, DecidableEq

/-- The slice of the relational store used by the vote ledger: posts keyed
by post id, votes keyed by `(agent_id, post_id)` (the unique index
`ix_votes_agent_post`), agents keyed by agent id. -/
structure DB where
  posts : List (Nat × PostRec)
  votes : List ((Nat × Nat) × Int)
  agents : List (Nat × AgentRec)
deriving Repr, DecidableEq

/-- Lookup `db.query(Post).filter(Post.id == post_id).first()`. -/
def findPost (l : List (Nat × PostRec)) (pid : Nat) : Option PostRec :=
  (l.find? (fun e => e.1 == pid)).map (·.2)

/-- Write back the mutated post row (the ORM updates the row in place). -/
def setPost (l : List (Nat × PostRec)) (pid : Nat) (r : PostRec) :
    List (Nat × PostRec) :=
  l.map (fun e => if e.1 = pid then (e.1, r) else e)

/-- Lookup `db.query(Vote).filter(Vote.agent_id == agent.id, Vote.post_id == post_id).first()`. -/
def findVote (votes : List ((Nat × Nat) × Int)) (voter pid : Nat) : Option Int :=
  (votes.find? (fun e => e.1.1 == voter && e.1.2 == pid)).map (·.2)

/-- Deletion `db.delete(existing)`: the row keyed `(voter, pid)` disappears. -/
def delVote (votes : List ((Nat × Nat) × Int)) (voter pid : Nat) :
    List ((Nat × Nat) × Int) :=
  votes.filter (fun e => !(e.1.1 == voter && e.1.2 == pid))

/-- Mutation `existing.vote = d`: mutate the direction of the row in place. -/
def setVote (votes : List ((Nat × Nat) × Int)) (voter pid : Nat) (d : Int) :
    List ((Nat × Nat) × Int) :=
  votes.map (fun e => if e.1 = (voter, pid) then (e.1, d) else e)

/-- Insertion `db.add(Vote(agent_id=voter, post_id=pid, vote=d))`: a fresh row. -/
def addVote (votes : List ((Nat × Nat) × Int)) (voter pid : Nat) (d : Int) :
    List ((Nat × Nat) × Int) :=
  votes ++ [((voter, pid), d)]

/-- Karma update `post.agent.karma += d` for the owner of the post. -/
def adjAgent (l : List (Nat × AgentRec)) (aid : Nat) (d : Int) :
    List (Nat × AgentRec) :=
  l.map (fun e => if e.1 = aid then (e.1, { e.2 with karma := e.2.karma + d }) else e)

/-- Agent lookup by id. -/
def findAgent (l : List (Nat × AgentRec)) (aid : Nat) : Option AgentRec :=
  (l.find? (fun e => e.1 == aid)).map (·.2)

/-- Endpoint `upvote_post` (`src/routers/posts.py` lines 221-262).  `none` models the
`HTTPException(404)` raised before any write; otherwise the returned triple
is the `{score, upvotes, downvotes}` payload and the new store state. -/
def upvote_post (voter pid : Nat) (s : DB) : Option ((Int × Int × Int) × DB) :=
  match findPost s.posts pid with
  | none => none
  | some post =>
    match findVote s.votes voter pid with
    | some v =>
      if v = 1 then
        -- Remove upvote
        let post' : PostRec := { post with upvotes := post.upvotes - 1, score := post.score - 1 }
        some ((post'.score, post'.upvotes, post'.downvotes),
          { posts := setPost s.posts pid post',
            votes := delVote s.votes voter pid,
            agents := adjAgent s.agents post.agent_id (-1) })
      else
        -- Change downvote to upvote
        let post' : PostRec := { post with downvotes := post.downvotes - 1,
                                           upvotes := post.upvotes + 1,
                                           score := post.score + 2 }
        some ((post'.score, post'.upvotes, post'.downvotes),
          { posts := setPost s.posts pid post',
            votes := setVote s.votes voter pid 1,
            agents := adjAgent s.agents post.agent_id 2 })
    | none =>
      -- New upvote
      let post' : PostRec := { post with upvotes := post.upvotes + 1, score := post.score + 1 }
      some ((post'.score, post'.upvotes, post'.downvotes),
        { posts := setPost s.posts pid post',
          votes := addVote s.votes voter pid 1,
          agents := adjAgent s.agents post.agent_id 1 })

/-- Endpoint `downvote_post` (`src/routers/posts.py` lines 265-306). -/
def downvote_post (voter pid : Nat) (s : DB) : Option ((Int × Int × Int) × DB) :=
  match findPost s.posts pid with
  | none => none
  | some post =>
    match findVote s.votes voter pid with
    | some v =>
      if v = -1 then
        -- Remove downvote
        let post' : PostRec := { post with downvotes := post.downvotes - 1, score := post.score + 1 }
        some ((post'.score, post'.upvotes, post'.downvotes),
          { posts := setPost s.posts pid post',
            votes := delVote s.votes voter pid,
            agents := adjAgent s.agents post.agent_id 1 })
      else
        -- Change upvote to downvote
        let post' : PostRec := { post with upvotes := post.upvotes - 1,
                                           downvotes := post.downvotes + 1,
                                           score := post.score - 2 }
        some ((post'.score, post'.upvotes, post'.downvotes),
          { posts := setPost s.posts pid post',
            votes := setVote s.votes voter pid (-1),
            agents := adjAgent s.agents post.agent_id (-2) })
    | none =>
      -- New downvote
      let post' : PostRec := { post with downvotes := post.downvotes + 1, score := post.score - 1 }
      some ((post'.score, post'.upvotes, post'.downvotes),
        { posts := setPost s.posts pid post',
          votes := addVote s.votes voter pid (-1),
          agents := adjAgent s.agents post.agent_id (-1) })

/-- One serialized vote request: `POST /posts/{pid}/upvote` or `/downvote`. -/
inductive VoteOp where
  | up (voter pid : Nat)
  | down (voter pid : Nat)
deriving Repr, DecidableEq

/-- State transition of a single request: a 404 leaves the store untouched. -/
def stepVote (op : VoteOp) (s : DB) : DB :=
  match op with
  | .up voter pid =>
    match upvote_post voter pid s with
    | none => s
    | some (_, s') => s'
  | .down voter pid =>
    match downvote_post voter pid s with
    | none => s
    | some (_, s') => s'

/-- A serialized sequence of vote requests. -/
def runVotes (ops : List VoteOp) (s : DB) : DB :=
  ops.foldl (fun s op => stepVote op s) s

end CSB

namespace CSB

/-! ### Association-list lemmas for the store model -/

theorem findPost_setPost (l : List (Nat × PostRec)) (pid q : Nat) (r : PostRec) :
    findPost (setPost l pid r) q =
      if q = pid then (findPost l pid).map (fun _ => r) else findPost l q := by
  induction l with
  | nil => by_cases h : q = pid <;> simp [findPost, setPost, h]
  | cons e t ih =>
    by_cases h1 : e.1 = pid
    · by_cases h2 : q = pid
      · subst h2 h1
        simp [findPost, setPost, List.find?_cons] at *
      · simp only [findPost, setPost, List.map_cons, if_pos h1, List.find?_cons] at *
        have hq : (e.1 == q) = false := by simp [h1]; omega
        simp [hq, h2] at *
        simpa [findPost, setPost] using ih
    · by_cases h2 : q = pid
      · subst h2
        have hq : (e.1 == q) = false := by simp; omega
        simp only [findPost, setPost, List.map_cons, if_neg h1, List.find?_cons, hq] at *
        simpa [findPost, setPost, h1] using ih
      · simp only [findPost, setPost, List.map_cons, if_neg h1, List.find?_cons] at *
        by_cases hq : e.1 = q
        · simp [hq, h2]
        · have hq' : (e.1 == q) = false := by simp [hq]
          simp [hq'] at *
          simpa [findPost, setPost, h2] using ih

/-! ### C1: the score/counter invariant -/

/-- The spec's invariant: every post's stored `score` equals its stored
`upvotes` minus its stored `downvotes`. -/
def ScoreInv (s : DB) : Prop :=
  ∀ pid p, findPost s.posts pid = some p → p.score = p.upvotes - p.downvotes

theorem setPost_scoreInv (s : DB) (pid : Nat) (h : ScoreInv s)
    (p' : PostRec) (hp' : p'.score = p'.upvotes - p'.downvotes)
    (vv : List ((Nat × Nat) × Int)) (aa : List (Nat × AgentRec)) :
    ScoreInv { posts := setPost s.posts pid p', votes := vv, agents := aa } := by
  intro q pq hq
  dsimp only at hq
  rw [findPost_setPost] at hq
  split_ifs at hq with hqe
  · cases hpp : findPost s.posts pid with
    | none => rw [hpp] at hq; simp at hq
    | some post =>
      rw [hpp] at hq
      simp only [Option.map_some'] at hq
      cases hq; exact hp'
  · exact h q pq hq

theorem upvote_post_scoreInv (voter pid : Nat) (s : DB) (r : Int × Int × Int)
    (s' : DB) (h : ScoreInv s) (hu : upvote_post voter pid s = some (r, s')) :
    ScoreInv s' := by
  cases hp : findPost s.posts pid with
  | none => simp [upvote_post, hp] at hu
  | some post =>
    have hps := h pid post hp
    cases hv : findVote s.votes voter pid with
    | none =>
      simp [upvote_post, hp, hv] at hu
      rw [← hu.2]
      exact setPost_scoreInv s pid h _ (by simp; omega) _ _
    | some v =>
      by_cases hv1 : v = 1
      · simp [upvote_post, hp, hv, hv1] at hu
        rw [← hu.2]
        exact setPost_scoreInv s pid h _ (by simp; omega) _ _
      · simp [upvote_post, hp, hv, hv1] at hu
        rw [← hu.2]
        exact setPost_scoreInv s pid h _ (by simp; omega) _ _

theorem downvote_post_scoreInv (voter pid : Nat) (s : DB) (r : Int × Int × Int)
    (s' : DB) (h : ScoreInv s) (hu : downvote_post voter pid s = some (r, s')) :
    ScoreInv s' := by
  cases hp : findPost s.posts pid with
  | none => simp [downvote_post, hp] at hu
  | some post =>
    have hps := h pid post hp
    cases hv : findVote s.votes voter pid with
    | none =>
      simp [downvote_post, hp, hv] at hu
      rw [← hu.2]
      exact setPost_scoreInv s pid h _ (by simp; omega) _ _
    | some v =>
      by_cases hv1 : v = -1
      · simp [downvote_post, hp, hv, hv1] at hu
        rw [← hu.2]
        exact setPost_scoreInv s pid h _ (by simp; omega) _ _
      · simp [downvote_post, hp, hv, hv1] at hu
        rw [← hu.2]
        exact setPost_scoreInv s pid h _ (by simp; omega) _ _

theorem stepVote_scoreInv (op : VoteOp) (s : DB) (h : ScoreInv s) :
    ScoreInv (stepVote op s) := by
  cases op with
  | up voter pid =>
    cases hu : upvote_post voter pid s with
    | none => simpa [stepVote, hu] using h
    | some p =>
      have := upvote_post_scoreInv voter pid s p.1 p.2 h (by rw [hu])
      simpa [stepVote, hu] using this
  | down voter pid =>
    cases hu : downvote_post voter pid s with
    | none => simpa [stepVote, hu] using h
    | some p =>
      have := downvote_post_scoreInv voter pid s p.1 p.2 h (by rw [hu])
      simpa [stepVote, hu] using this

/-- C1: starting from any store satisfying `score = upvotes − downvotes`
(in particular any store of freshly created posts, which start at 0/0/0),
every serialized sequence of upvote/downvote requests by any voters
preserves `score(p) = upvotes(p) − downvotes(p)` for every post. -/
theorem score_eq_upvotes_sub_downvotes (ops : List VoteOp) (s : DB)
    (h : ScoreInv s) : ScoreInv (runVotes ops s) := by
  induction ops generalizing s with
  | nil => exact h
  | cons op rest ih => exact ih (stepVote op s) (stepVote_scoreInv op s h)

/-- A one-post store owned by agent 7, all counters fresh at zero. -/
def exDB0 : DB := ⟨[(1, ⟨7, 0, 0, 0⟩)], [], [(7, ⟨0, 0, 0, 0⟩)]⟩

/-- Witness for C1 at a concrete store and vote sequence. -/
theorem score_eq_upvotes_sub_downvotes_witness :
    ScoreInv (runVotes [.up 3 1, .down 4 1, .down 3 1] exDB0) :=
  score_eq_upvotes_sub_downvotes [.up 3 1, .down 4 1, .down 3 1] exDB0
    (by
      intro pid p hp
      simp only [exDB0, findPost, List.find?] at hp
      by_cases h1 : (1 : Nat) == pid
      · simp [h1] at hp; simp [← hp]
      · simp [h1] at hp)

/-! ### C2: the end-to-end vote cycle -/

/-- C2: on a fresh post (id 1) owned by agent 7 with karma 0, voter 3's
upvote yields score 1 / karma 1; voter 3's downvote flips it to score −1 /
karma −1; voter 3's second downvote retracts, restoring score 0 / karma 0
and deleting the vote row (the store returns to its initial state). -/
theorem end_to_end_vote_cycle :
    runVotes [.up 3 1] exDB0 =
        ⟨[(1, ⟨7, 1, 0, 1⟩)], [((3, 1), 1)], [(7, ⟨1, 0, 0, 0⟩)]⟩ ∧
      runVotes [.up 3 1, .down 3 1] exDB0 =
        ⟨[(1, ⟨7, 0, 1, -1⟩)], [((3, 1), -1)], [(7, ⟨-1, 0, 0, 0⟩)]⟩ ∧
      runVotes [.up 3 1, .down 3 1, .down 3 1] exDB0 = exDB0 := by
  refine ⟨by decide, by decide, by decide⟩

/-! ### C8: voting on a nonexistent post -/

/-- C8: if `postId` identifies no post, both vote endpoints fail with
NotFound (modelled as `none`, the 404 raised before any write) and the
request's state transition leaves the store unchanged: no vote row,
counter, or karma write occurs. -/
theorem vote_nonexistent_post_notfound (voter pid : Nat) (s : DB)
    (h : findPost s.posts pid = none) :
    upvote_post voter pid s = none ∧ downvote_post voter pid s = none ∧
      stepVote (.up voter pid) s = s ∧ stepVote (.down voter pid) s = s := by
  have hu : upvote_post voter pid s = none := by unfold upvote_post; rw [h]
  have hd : downvote_post voter pid s = none := by unfold downvote_post; rw [h]
  refine ⟨hu, hd, ?_, ?_⟩ <;> simp [stepVote, hu, hd]

/-- Witness for C8: post id 2 does not exist in `exDB0`. -/
theorem vote_nonexistent_post_notfound_witness :
    upvote_post 3 2 exDB0 = none ∧ downvote_post 3 2 exDB0 = none ∧
      stepVote (.up 3 2) exDB0 = exDB0 ∧ stepVote (.down 3 2) exDB0 = exDB0 :=
  vote_nonexistent_post_notfound 3 2 exDB0 (by decide)

/-! ### Restoration lemmas for C7 -/

theorem findVote_eq_none_iff (votes : List ((Nat × Nat) × Int)) (v pid : Nat) :
    findVote votes v pid = none ↔ ∀ e ∈ votes, ¬(e.1.1 = v ∧ e.1.2 = pid) := by
  simp [findVote, List.find?_eq_none]

theorem findVote_addVote_self (votes : List ((Nat × Nat) × Int)) (v pid : Nat)
    (d : Int) (h : findVote votes v pid = none) :
    findVote (addVote votes v pid d) v pid = some d := by
  induction votes with
  | nil => simp [findVote, addVote, List.find?]
  | cons e t ih =>
    rw [findVote_eq_none_iff] at h
    have he := h e (by simp)
    have hpred : (e.1.1 == v && e.1.2 == pid) = false := by
      simp only [Bool.and_eq_false_iff, beq_eq_false_iff_ne, ne_eq]
      omega
    have ht : findVote t v pid = none := by
      rw [findVote_eq_none_iff]
      intro x hx; exact h x (by simp [hx])
    simpa [findVote, addVote, List.find?_cons, hpred] using ih ht

theorem delVote_addVote (votes : List ((Nat × Nat) × Int)) (v pid : Nat)
    (d : Int) (h : findVote votes v pid = none) :
    delVote (addVote votes v pid d) v pid = votes := by
  rw [findVote_eq_none_iff] at h
  unfold delVote addVote
  rw [List.filter_append]
  have h1 : List.filter (fun e => !(e.1.1 == v && e.1.2 == pid)) votes = votes := by
    rw [List.filter_eq_self]
    intro e he
    have := h e he
    simp only [Bool.not_eq_true', Bool.and_eq_false_iff, beq_eq_false_iff_ne, ne_eq,
      Bool.not_eq_false, Bool.and_eq_true, beq_iff_eq]
    omega
  rw [h1]
  simp

theorem setPost_setPost (l : List (Nat × PostRec)) (pid : Nat) (r1 r2 : PostRec) :
    setPost (setPost l pid r1) pid r2 = setPost l pid r2 := by
  induction l with
  | nil => rfl
  | cons e t ih =>
    by_cases h : e.1 = pid <;> simp [setPost, h] at * <;> simpa [setPost] using ih

theorem setPost_eq_of_not_mem (l : List (Nat × PostRec)) (pid : Nat) (r : PostRec)
    (h : ∀ e ∈ l, e.1 ≠ pid) : setPost l pid r = l := by
  induction l with
  | nil => rfl
  | cons e t ih =>
    have he := h e (by simp)
    simp only [setPost, List.map_cons, if_neg he]
    have := ih (fun x hx => h x (by simp [hx]))
    simpa [setPost] using this

theorem setPost_self (l : List (Nat × PostRec)) (pid : Nat) (p : PostRec)
    (hnodup : (l.map (·.1)).Nodup) (hfind : findPost l pid = some p) :
    setPost l pid p = l := by
  induction l with
  | nil => simp [findPost] at hfind
  | cons e t ih =>
    simp only [List.map_cons, List.nodup_cons] at hnodup
    by_cases h : e.1 = pid
    · have hbeq : (e.1 == pid) = true := by simp [h]
      have hp : p = e.2 := by
        simpa [findPost, List.find?_cons, hbeq, eq_comm] using hfind
      subst hp
      have htail : setPost t pid e.2 = t := by
        apply setPost_eq_of_not_mem
        intro x hx hxe
        apply hnodup.1
        have hxm : x.1 ∈ t.map (·.1) := List.mem_map_of_mem _ hx
        rwa [hxe, ← h] at hxm
      simp only [setPost, List.map_cons, if_pos h]
      have hhd : ((e.1, e.2) : Nat × PostRec) = e := rfl
      rw [hhd]
      simpa [setPost] using htail
    · have hbeq : (e.1 == pid) = false := by simp [h]
      have hfind' : findPost t pid = some p := by
        simpa [findPost, List.find?_cons, hbeq] using hfind
      simp only [setPost, List.map_cons, if_neg h]
      have := ih hnodup.2 hfind'
      simpa [setPost] using this

theorem adjAgent_adjAgent (l : List (Nat × AgentRec)) (a : Nat) (d1 d2 : Int) :
    adjAgent (adjAgent l a d1) a d2 = adjAgent l a (d1 + d2) := by
  induction l with
  | nil => rfl
  | cons e t ih =>
    rcases e with ⟨k, ka, tt, tg, wr⟩
    by_cases h : k = a
    · simp only [adjAgent, List.map_cons, if_pos h] at *
      refine congrArg₂ List.cons ?_ ih
      simp [Int.add_assoc]
    · simp only [adjAgent, List.map_cons, if_neg h] at *
      exact congrArg₂ List.cons rfl ih

theorem adjAgent_zero (l : List (Nat × AgentRec)) (a : Nat) :
    adjAgent l a 0 = l := by
  induction l with
  | nil => rfl
  | cons e t ih =>
    rcases e with ⟨k, ka, tt, tg, wr⟩
    by_cases h : k = a
    · simp only [adjAgent, List.map_cons, if_pos h] at *
      exact congrArg₂ List.cons (by simp) ih
    · simp only [adjAgent, List.map_cons, if_neg h] at *
      exact congrArg₂ List.cons rfl ih

/-! ### C7: idempotence of retraction -/

/-- C7: on a post `pid` where `voter` holds no vote row, an upvote followed
by a second identical upvote restores the post's score/upvote/downvote
counters, the owner's karma, and the vote table to their pre-vote values;
a third identical upvote therefore reproduces exactly the state the first
call produced. -/
theorem retraction_idempotent (s : DB) (voter pid : Nat) (p0 : PostRec)
    (hnodup : (s.posts.map (·.1)).Nodup)
    (hfind : findPost s.posts pid = some p0)
    (hnov : findVote s.votes voter pid = none) :
    runVotes [.up voter pid, .up voter pid] s = s ∧
      runVotes [.up voter pid, .up voter pid, .up voter pid] s =
        runVotes [.up voter pid] s := by
  have h1 : stepVote (.up voter pid) s =
      { posts := setPost s.posts pid
          { p0 with upvotes := p0.upvotes + 1, score := p0.score + 1 },
        votes := addVote s.votes voter pid 1,
        agents := adjAgent s.agents p0.agent_id 1 } := by
    simp [stepVote, upvote_post, hfind, hnov]
  have hfind1 : findPost
      (setPost s.posts pid
        { p0 with upvotes := p0.upvotes + 1, score := p0.score + 1 }) pid =
      some { p0 with upvotes := p0.upvotes + 1, score := p0.score + 1 } := by
    rw [findPost_setPost]; simp [hfind]
  have hvote1 : findVote (addVote s.votes voter pid 1) voter pid = some 1 :=
    findVote_addVote_self _ _ _ _ hnov
  have hp2 : ({ p0 with upvotes := p0.upvotes + 1 - 1, score := p0.score + 1 - 1 }
      : PostRec) = p0 := by
    rcases p0 with ⟨a0, u0, d0, s0⟩
    have hu : u0 + 1 - 1 = u0 := by omega
    have hs : s0 + 1 - 1 = s0 := by omega
    simp [hu, hs]
  have h2 : stepVote (.up voter pid) (stepVote (.up voter pid) s) = s := by
    rw [h1]
    simp only [stepVote, upvote_post, hfind1, hvote1, if_pos rfl]
    rw [setPost_setPost]
    rw [hp2]
    rw [setPost_self s.posts pid p0 hnodup hfind]
    rw [delVote_addVote s.votes voter pid 1 hnov]
    rw [adjAgent_adjAgent]
    norm_num
    rw [adjAgent_zero]
  have hrun2 : runVotes [.up voter pid, .up voter pid] s = s := by
    simpa [runVotes] using h2
  refine ⟨hrun2, ?_⟩
  have : runVotes [.up voter pid, .up voter pid, .up voter pid] s =
      stepVote (.up voter pid) (runVotes [.up voter pid, .up voter pid] s) := rfl
  rw [this, hrun2]
  rfl

/-- Witness for C7 at the concrete store `exDB0`. -/
theorem retraction_idempotent_witness :
    runVotes [.up 3 1, .up 3 1] exDB0 = exDB0 ∧
      runVotes [.up 3 1, .up 3 1, .up 3 1] exDB0 = runVotes [.up 3 1] exDB0 :=
  retraction_idempotent exDB0 3 1 ⟨7, 0, 0, 0⟩ (by decide) (by decide) (by decide)

/-! ### Counting lemmas and C10: counters never go negative -/

/-- Number of vote rows on post `pid` with direction `d`. -/
def cntV (votes : List ((Nat × Nat) × Int)) (pid : Nat) (d : Int) : Nat :=
  votes.countP (fun e => e.1.2 == pid && e.2 == d)

theorem cntV_addVote (votes : List ((Nat × Nat) × Int)) (v pid : Nat) (d : Int)
    (pid' : Nat) (d' : Int) :
    cntV (addVote votes v pid d) pid' d' =
      cntV votes pid' d' + (if pid = pid' ∧ d = d' then 1 else 0) := by
  unfold cntV addVote
  rw [List.countP_append]
  congr 1
  by_cases h1 : pid = pid' <;> by_cases h2 : d = d' <;>
    simp [List.countP_cons, h1, h2]

theorem delVote_eq_of_not_mem (votes : List ((Nat × Nat) × Int)) (v pid : Nat)
    (h : ∀ e ∈ votes, e.1 ≠ (v, pid)) : delVote votes v pid = votes := by
  unfold delVote
  rw [List.filter_eq_self]
  intro e he
  have := h e he
  simp only [ne_eq, Prod.ext_iff, not_and] at this
  simp only [Bool.not_eq_true', Bool.and_eq_false_iff, beq_eq_false_iff_ne, ne_eq]
  by_cases hv : e.1.1 = v
  · exact Or.inr (this hv)
  · exact Or.inl hv

theorem setVote_eq_of_not_mem (votes : List ((Nat × Nat) × Int)) (v pid : Nat)
    (d : Int) (h : ∀ e ∈ votes, e.1 ≠ (v, pid)) : setVote votes v pid d = votes := by
  induction votes with
  | nil => rfl
  | cons e t ih =>
    have he := h e (by simp)
    simp only [setVote, List.map_cons, if_neg he]
    have := ih (fun x hx => h x (by simp [hx]))
    simpa [setVote] using this

theorem findVote_mem (votes : List ((Nat × Nat) × Int)) (v pid : Nat) (d : Int)
    (h : findVote votes v pid = some d) : ((v, pid), d) ∈ votes := by
  unfold findVote at h
  cases hf : votes.find? (fun e => e.1.1 == v && e.1.2 == pid) with
  | none => rw [hf] at h; simp at h
  | some e =>
    rw [hf] at h
    simp only [Option.map_some'] at h
    have hmem := List.mem_of_find?_eq_some hf
    have hpred := List.find?_some hf
    simp only [Bool.and_eq_true, beq_iff_eq] at hpred
    have he : e = ((v, pid), d) := by
      rcases e with ⟨⟨a, b⟩, dd⟩
      simp only at hpred h
      simp [hpred.1, hpred.2, Option.some.inj h]
    rwa [he] at hmem

theorem findVote_cons_of_key (e : (Nat × Nat) × Int)
    (t : List ((Nat × Nat) × Int)) (v pid : Nat) (hk : e.1 = (v, pid)) :
    findVote (e :: t) v pid = some e.2 := by
  have h1 : e.1.1 = v := by rw [hk]
  have h2 : e.1.2 = pid := by rw [hk]
  simp [findVote, List.find?_cons, h1, h2]

theorem findVote_cons_of_ne (e : (Nat × Nat) × Int)
    (t : List ((Nat × Nat) × Int)) (v pid : Nat) (hk : e.1 ≠ (v, pid)) :
    findVote (e :: t) v pid = findVote t v pid := by
  have hp : (e.1.1 == v && e.1.2 == pid) = false := by
    simp only [ne_eq, Prod.ext_iff, not_and] at hk
    simp only [Bool.and_eq_false_iff, beq_eq_false_iff_ne, ne_eq]
    by_cases hv : e.1.1 = v
    · exact Or.inr (hk hv)
    · exact Or.inl hv
  simp [findVote, List.find?_cons, hp]

theorem delVote_cons_of_key (e : (Nat × Nat) × Int)
    (t : List ((Nat × Nat) × Int)) (v pid : Nat) (hk : e.1 = (v, pid)) :
    delVote (e :: t) v pid = delVote t v pid := by
  have h1 : e.1.1 = v := by rw [hk]
  have h2 : e.1.2 = pid := by rw [hk]
  simp [delVote, List.filter_cons, h1, h2]

theorem delVote_cons_of_ne (e : (Nat × Nat) × Int)
    (t : List ((Nat × Nat) × Int)) (v pid : Nat) (hk : e.1 ≠ (v, pid)) :
    delVote (e :: t) v pid = e :: delVote t v pid := by
  have hp : (e.1.1 == v && e.1.2 == pid) = false := by
    simp only [ne_eq, Prod.ext_iff, not_and] at hk
    simp only [Bool.and_eq_false_iff, beq_eq_false_iff_ne, ne_eq]
    by_cases hv : e.1.1 = v
    · exact Or.inr (hk hv)
    · exact Or.inl hv
  unfold delVote
  rw [List.filter_cons, hp]
  simp

theorem not_key_mem_of_nodup (e : (Nat × Nat) × Int)
    (t : List ((Nat × Nat) × Int)) (hnd : e.1 ∉ t.map (·.1)) (v pid : Nat)
    (hk : e.1 = (v, pid)) : ∀ x ∈ t, x.1 ≠ (v, pid) := by
  intro x hx hxe
  apply hnd
  rw [hk]
  exact hxe ▸ List.mem_map_of_mem _ hx

theorem cntV_delVote (votes : List ((Nat × Nat) × Int)) (v pid : Nat) (d0 : Int)
    (hnd : (votes.map (·.1)).Nodup) (hf : findVote votes v pid = some d0)
    (pid' : Nat) (d' : Int) :
    cntV votes pid' d' =
      cntV (delVote votes v pid) pid' d' +
        (if pid = pid' ∧ d0 = d' then 1 else 0) := by
  induction votes with
  | nil => simp [findVote] at hf
  | cons e t ih =>
    simp only [List.map_cons, List.nodup_cons] at hnd
    by_cases hk : e.1 = (v, pid)
    · have hd0 : e.2 = d0 := by
        have := findVote_cons_of_key e t v pid hk
        rw [hf] at this
        exact (Option.some.inj this).symm
      have htail : delVote t v pid = t :=
        delVote_eq_of_not_mem t v pid (not_key_mem_of_nodup e t hnd.1 v pid hk)
      rw [delVote_cons_of_key e t v pid hk, htail]
      simp only [cntV, List.countP_cons]
      have h2 : e.1.2 = pid := by rw [hk]
      rw [h2, hd0]
      by_cases hc1 : pid = pid' <;> by_cases hc2 : d0 = d' <;>
        simp [hc1, hc2]
    · have hf' : findVote t v pid = some d0 := by
        rw [← findVote_cons_of_ne e t v pid hk]; exact hf
      rw [delVote_cons_of_ne e t v pid hk]
      simp only [cntV, List.countP_cons]
      have := ih hnd.2 hf'
      simp only [cntV] at this
      omega

theorem setVote_cons_of_key (e : (Nat × Nat) × Int)
    (t : List ((Nat × Nat) × Int)) (v pid : Nat) (dn : Int) (hk : e.1 = (v, pid)) :
    setVote (e :: t) v pid dn = (e.1, dn) :: setVote t v pid dn := by
  simp [setVote, List.map_cons, hk]

theorem setVote_cons_of_ne (e : (Nat × Nat) × Int)
    (t : List ((Nat × Nat) × Int)) (v pid : Nat) (dn : Int) (hk : e.1 ≠ (v, pid)) :
    setVote (e :: t) v pid dn = e :: setVote t v pid dn := by
  simp [setVote, List.map_cons, hk]

theorem cntV_setVote (votes : List ((Nat × Nat) × Int)) (v pid : Nat) (d0 dn : Int)
    (hnd : (votes.map (·.1)).Nodup) (hf : findVote votes v pid = some d0)
    (pid' : Nat) (d' : Int) :
    cntV (setVote votes v pid dn) pid' d' +
        (if pid = pid' ∧ d0 = d' then 1 else 0) =
      cntV votes pid' d' + (if pid = pid' ∧ dn = d' then 1 else 0) := by
  induction votes with
  | nil => simp [findVote] at hf
  | cons e t ih =>
    simp only [List.map_cons, List.nodup_cons] at hnd
    by_cases hk : e.1 = (v, pid)
    · have hd0 : e.2 = d0 := by
        have := findVote_cons_of_key e t v pid hk
        rw [hf] at this
        exact (Option.some.inj this).symm
      have htail : setVote t v pid dn = t :=
        setVote_eq_of_not_mem t v pid dn (not_key_mem_of_nodup e t hnd.1 v pid hk)
      rw [setVote_cons_of_key e t v pid dn hk, htail]
      simp only [cntV, List.countP_cons]
      have h2 : e.1.2 = pid := by rw [hk]
      rw [h2, hd0]
      by_cases hc1 : pid = pid' <;> by_cases hc2 : d0 = d' <;>
        by_cases hc3 : dn = d' <;> simp [hc1, hc2, hc3]
    · have hf' : findVote t v pid = some d0 := by
        rw [← findVote_cons_of_ne e t v pid hk]; exact hf
      rw [setVote_cons_of_ne e t v pid dn hk]
      simp only [cntV, List.countP_cons]
      have := ih hnd.2 hf'
      simp only [cntV] at this
      omega

theorem keys_setVote (votes : List ((Nat × Nat) × Int)) (v pid : Nat) (d : Int) :
    (setVote votes v pid d).map (·.1) = votes.map (·.1) := by
  induction votes with
  | nil => rfl
  | cons e t ih =>
    by_cases h : e.1 = (v, pid)
    · rw [setVote_cons_of_key e t v pid d h]
      simp only [List.map_cons]
      exact congrArg₂ List.cons rfl ih
    · rw [setVote_cons_of_ne e t v pid d h]
      simp only [List.map_cons]
      exact congrArg₂ List.cons rfl ih

theorem nodup_delVote (votes : List ((Nat × Nat) × Int)) (v pid : Nat)
    (h : (votes.map (·.1)).Nodup) : ((delVote votes v pid).map (·.1)).Nodup :=
  ((List.filter_sublist _).map _).nodup h

theorem nodup_addVote (votes : List ((Nat × Nat) × Int)) (v pid : Nat) (d : Int)
    (h : (votes.map (·.1)).Nodup) (hnone : findVote votes v pid = none) :
    ((addVote votes v pid d).map (·.1)).Nodup := by
  unfold addVote
  rw [List.map_append, List.nodup_append]
  refine ⟨h, by simp, ?_⟩
  intro x hx
  rcases List.mem_map.mp hx with ⟨e, he, hfe⟩
  rw [findVote_eq_none_iff] at hnone
  have hne := hnone e he
  simp only [List.map_cons, List.map_nil, List.mem_singleton]
  rw [← hfe]
  intro hcontra
  exact hne ⟨congrArg Prod.fst hcontra, congrArg Prod.snd hcontra⟩

theorem mem_setVote (votes : List ((Nat × Nat) × Int)) (v pid : Nat) (dn : Int)
    (x : (Nat × Nat) × Int) (hx : x ∈ setVote votes v pid dn) :
    x ∈ votes ∨ x = ((v, pid), dn) := by
  unfold setVote at hx
  rcases List.mem_map.mp hx with ⟨e, he, hfe⟩
  by_cases h : e.1 = (v, pid)
  · right; rw [← hfe]; simp [h]
  · left; rw [← hfe]; simp [h]; exact he

/-- The inductive invariant behind C10: vote keys are unique (the DB unique
index), every vote row's direction is +1 or −1, and each post's counters
equal the number of matching vote rows. -/
def CountInv (s : DB) : Prop :=
  (s.votes.map (·.1)).Nodup ∧
    (∀ k d, ((k, d) : (Nat × Nat) × Int) ∈ s.votes → d = 1 ∨ d = -1) ∧
    ∀ pid p, findPost s.posts pid = some p →
      p.upvotes = (cntV s.votes pid 1 : Int) ∧
        p.downvotes = (cntV s.votes pid (-1) : Int)

theorem upvote_post_countInv (voter pid : Nat) (s : DB) (r : Int × Int × Int)
    (s' : DB) (h : CountInv s) (hu : upvote_post voter pid s = some (r, s')) :
    CountInv s' := by
  obtain ⟨hnd, hpm, hcnt⟩ := h
  cases hp : findPost s.posts pid with
  | none => simp [upvote_post, hp] at hu
  | some post =>
    obtain ⟨hpu, hpd⟩ := hcnt pid post hp
    cases hv : findVote s.votes voter pid with
    | none =>
      simp [upvote_post, hp, hv] at hu
      rw [← hu.2]
      refine ⟨nodup_addVote s.votes voter pid 1 hnd hv, ?_, ?_⟩
      · intro k d hkd
        rcases List.mem_append.mp hkd with hm | hm
        · exact hpm k d hm
        · simp only [List.mem_singleton, Prod.mk.injEq] at hm
          exact Or.inl hm.2
      · intro q pq hq
        dsimp only at hq
        rw [findPost_setPost] at hq
        have e1 := cntV_addVote s.votes voter pid 1 q 1
        have e2 := cntV_addVote s.votes voter pid 1 q (-1)
        split_ifs at hq with hqe
        · subst hqe
          rw [hp] at hq
          simp only [Option.map_some'] at hq
          cases hq
          norm_num at e1 e2
          refine ⟨?_, ?_⟩ <;> dsimp only <;> omega
        · have hqe' : ¬(pid = q) := fun hh => hqe hh.symm
          simp only [hqe', false_and, if_false] at e1 e2
          obtain ⟨hc1, hc2⟩ := hcnt q pq hq
          refine ⟨?_, ?_⟩ <;> dsimp only <;> omega
    | some v =>
      by_cases hv1 : v = 1
      · subst hv1
        simp [upvote_post, hp, hv] at hu
        rw [← hu.2]
        refine ⟨nodup_delVote s.votes voter pid hnd, ?_, ?_⟩
        · intro k d hkd
          exact hpm k d (List.mem_of_mem_filter hkd)
        · intro q pq hq
          dsimp only at hq
          rw [findPost_setPost] at hq
          have e1 := cntV_delVote s.votes voter pid 1 hnd hv q 1
          have e2 := cntV_delVote s.votes voter pid 1 hnd hv q (-1)
          split_ifs at hq with hqe
          · subst hqe
            rw [hp] at hq
            simp only [Option.map_some'] at hq
            cases hq
            norm_num at e1 e2
            refine ⟨?_, ?_⟩ <;> dsimp only <;> omega
          · have hqe' : ¬(pid = q) := fun hh => hqe hh.symm
            simp only [hqe', false_and, if_false] at e1 e2
            obtain ⟨hc1, hc2⟩ := hcnt q pq hq
            refine ⟨?_, ?_⟩ <;> dsimp only <;> omega
      · have hvm : v = -1 := by
          rcases hpm (voter, pid) v (findVote_mem s.votes voter pid v hv) with h1 | h1
          · exact absurd h1 hv1
          · exact h1
        subst hvm
        simp [upvote_post, hp, hv] at hu
        rw [← hu.2]
        refine ⟨?_, ?_, ?_⟩
        · rw [show ((setVote s.votes voter pid 1).map (·.1)) =
              s.votes.map (·.1) from keys_setVote s.votes voter pid 1]
          exact hnd
        · intro k d hkd
          rcases mem_setVote s.votes voter pid 1 ((k, d)) hkd with hm | hm
          · exact hpm k d hm
          · simp only [Prod.mk.injEq] at hm
            exact Or.inl hm.2
        · intro q pq hq
          dsimp only at hq
          rw [findPost_setPost] at hq
          have e1 := cntV_setVote s.votes voter pid (-1) 1 hnd hv q 1
          have e2 := cntV_setVote s.votes voter pid (-1) 1 hnd hv q (-1)
          split_ifs at hq with hqe
          · subst hqe
            rw [hp] at hq
            simp only [Option.map_some'] at hq
            cases hq
            norm_num at e1 e2
            refine ⟨?_, ?_⟩ <;> dsimp only <;> omega
          · have hqe' : ¬(pid = q) := fun hh => hqe hh.symm
            simp only [hqe', false_and, if_false] at e1 e2
            obtain ⟨hc1, hc2⟩ := hcnt q pq hq
            refine ⟨?_, ?_⟩ <;> dsimp only <;> omega

theorem downvote_post_countInv (voter pid : Nat) (s : DB) (r : Int × Int × Int)
    (s' : DB) (h : CountInv s) (hu : downvote_post voter pid s = some (r, s')) :
    CountInv s' := by
  obtain ⟨hnd, hpm, hcnt⟩ := h
  cases hp : findPost s.posts pid with
  | none => simp [downvote_post, hp] at hu
  | some post =>
    obtain ⟨hpu, hpd⟩ := hcnt pid post hp
    cases hv : findVote s.votes voter pid with
    | none =>
      simp [downvote_post, hp, hv] at hu
      rw [← hu.2]
      refine ⟨nodup_addVote s.votes voter pid (-1) hnd hv, ?_, ?_⟩
      · intro k d hkd
        rcases List.mem_append.mp hkd with hm | hm
        · exact hpm k d hm
        · simp only [List.mem_singleton, Prod.mk.injEq] at hm
          exact Or.inr hm.2
      · intro q pq hq
        dsimp only at hq
        rw [findPost_setPost] at hq
        have e1 := cntV_addVote s.votes voter pid (-1) q 1
        have e2 := cntV_addVote s.votes voter pid (-1) q (-1)
        split_ifs at hq with hqe
        · subst hqe
          rw [hp] at hq
          simp only [Option.map_some'] at hq
          cases hq
          norm_num at e1 e2
          refine ⟨?_, ?_⟩ <;> dsimp only <;> omega
        · have hqe' : ¬(pid = q) := fun hh => hqe hh.symm
          simp only [hqe', false_and, if_false] at e1 e2
          obtain ⟨hc1, hc2⟩ := hcnt q pq hq
          refine ⟨?_, ?_⟩ <;> dsimp only <;> omega
    | some v =>
      by_cases hv1 : v = -1
      · subst hv1
        simp [downvote_post, hp, hv] at hu
        rw [← hu.2]
        refine ⟨nodup_delVote s.votes voter pid hnd, ?_, ?_⟩
        · intro k d hkd
          exact hpm k d (List.mem_of_mem_filter hkd)
        · intro q pq hq
          dsimp only at hq
          rw [findPost_setPost] at hq
          have e1 := cntV_delVote s.votes voter pid (-1) hnd hv q 1
          have e2 := cntV_delVote s.votes voter pid (-1) hnd hv q (-1)
          split_ifs at hq with hqe
          · subst hqe
            rw [hp] at hq
            simp only [Option.map_some'] at hq
            cases hq
            norm_num at e1 e2
            refine ⟨?_, ?_⟩ <;> dsimp only <;> omega
          · have hqe' : ¬(pid = q) := fun hh => hqe hh.symm
            simp only [hqe', false_and, if_false] at e1 e2
            obtain ⟨hc1, hc2⟩ := hcnt q pq hq
            refine ⟨?_, ?_⟩ <;> dsimp only <;> omega
      · have hvm : v = 1 := by
          rcases hpm (voter, pid) v (findVote_mem s.votes voter pid v hv) with h1 | h1
          · exact h1
          · exact absurd h1 hv1
        subst hvm
        simp [downvote_post, hp, hv] at hu
        rw [← hu.2]
        refine ⟨?_, ?_, ?_⟩
        · rw [show ((setVote s.votes voter pid (-1)).map (·.1)) =
              s.votes.map (·.1) from keys_setVote s.votes voter pid (-1)]
          exact hnd
        · intro k d hkd
          rcases mem_setVote s.votes voter pid (-1) ((k, d)) hkd with hm | hm
          · exact hpm k d hm
          · simp only [Prod.mk.injEq] at hm
            exact Or.inr hm.2
        · intro q pq hq
          dsimp only at hq
          rw [findPost_setPost] at hq
          have e1 := cntV_setVote s.votes voter pid 1 (-1) hnd hv q 1
          have e2 := cntV_setVote s.votes voter pid 1 (-1) hnd hv q (-1)
          split_ifs at hq with hqe
          · subst hqe
            rw [hp] at hq
            simp only [Option.map_some'] at hq
            cases hq
            norm_num at e1 e2
            refine ⟨?_, ?_⟩ <;> dsimp only <;> omega
          · have hqe' : ¬(pid = q) := fun hh => hqe hh.symm
            simp only [hqe', false_and, if_false] at e1 e2
            obtain ⟨hc1, hc2⟩ := hcnt q pq hq
            refine ⟨?_, ?_⟩ <;> dsimp only <;> omega

theorem stepVote_countInv (op : VoteOp) (s : DB) (h : CountInv s) :
    CountInv (stepVote op s) := by
  cases op with
  | up voter pid =>
    cases hu : upvote_post voter pid s with
    | none => simpa [stepVote, hu] using h
    | some p =>
      have := upvote_post_countInv voter pid s p.1 p.2 h (by rw [hu])
      simpa [stepVote, hu] using this
  | down voter pid =>
    cases hu : downvote_post voter pid s with
    | none => simpa [stepVote, hu] using h
    | some p =>
      have := downvote_post_countInv voter pid s p.1 p.2 h (by rw [hu])
      simpa [stepVote, hu] using this

theorem runVotes_countInv (ops : List VoteOp) (s : DB) (h : CountInv s) :
    CountInv (runVotes ops s) := by
  induction ops generalizing s with
  | nil => exact h
  | cons op rest ih => exact ih (stepVote op s) (stepVote_countInv op s h)

/-- C10: starting from a store whose counters agree with its vote rows (in
particular any store of fresh posts with zero counters and no vote rows),
every serialized sequence of upvote/downvote requests leaves every post
with `upvotes ≥ 0` and `downvotes ≥ 0`: a counter is only decremented when
a matching vote row exists. -/
theorem counters_nonneg (ops : List VoteOp) (s : DB) (h : CountInv s) :
    ∀ pid p, findPost (runVotes ops s).posts pid = some p →
      0 ≤ p.upvotes ∧ 0 ≤ p.downvotes := by
  intro pid p hp
  obtain ⟨hu, hd⟩ := (runVotes_countInv ops s h).2.2 pid p hp
  rw [hu, hd]
  exact ⟨Int.natCast_nonneg _, Int.natCast_nonneg _⟩

/-- Witness for C10: after one upvote on the fresh store `exDB0`, post 1's
counters are (1, 0), both nonnegative. -/
theorem counters_nonneg_witness :
    0 ≤ ((⟨7, 1, 0, 1⟩ : PostRec).upvotes) ∧
      0 ≤ ((⟨7, 1, 0, 1⟩ : PostRec).downvotes) :=
  counters_nonneg [.up 3 1] exDB0
    ⟨by simp [exDB0],
     fun k d hkd => by simp [exDB0] at hkd,
     fun pid p hp => by
       by_cases h1 : pid = 1
       · subst h1
         simp [exDB0, findPost, List.find?, cntV] at hp ⊢
         simp [← hp]
       · have hb : ((1 : Nat) == pid) = false := by
           simp only [beq_eq_false_iff_ne, ne_eq]
           exact Ne.symm h1
         simp [exDB0, findPost, List.find?, hb] at hp⟩
    1 ⟨7, 1, 0, 1⟩ (by decide)

/-! ### C9: agent trade-stat updates in `create_post` -/

/-- The agent-stat update of `create_post` (`src/routers/posts.py` lines
59-71), as a function of the agent row, the `gain_loss_pct` values of the
agent's already-stored posts, and the new post's optional `gain_loss_pct`.
`db.flush()` runs after `db.add(post)`, so the win-rate recount queries
include the new post; `total_trades` and `total_gain_loss_pct` are bumped
from their previous values, while `win_rate` is recomputed from the
agent's full post history (`winning_trades / total_pnl_posts * 100`). -/
def create_post_stats (a : AgentRec) (history : List (Option ℚ))
    (pct : Option ℚ) : AgentRec :=
  match pct with
  | none => a
  | some g =>
    let a1 : AgentRec :=
      { a with total_trades := a.total_trades + 1,
               total_gain_loss_pct := a.total_gain_loss_pct + g }
    let hist := history ++ [some g]
    let total_pnl_posts := hist.countP (fun o => o.isSome)
    let winning_trades := hist.countP (fun o => match o with
      | some x => decide (0 < x)
      | none => false)
    if 0 < total_pnl_posts then
      { a1 with win_rate := ((winning_trades : ℚ) / (total_pnl_posts : ℚ)) * 100 }
    else
      { a1 with win_rate := 0 }

/-- C9 counterexample: two stores whose agent row carries identical stat
fields (`total_trades = 1`, `total_gain_loss_pct = 10`, `win_rate = 100`)
but different post histories (one prior winning post vs. one prior losing
post) produce different `win_rate`s for the same new post — so the update
is not a running aggregate of the previous field values: `win_rate` is
recomputed from the agent's full post history. -/
theorem win_rate_depends_on_history :
    create_post_stats ⟨0, 1, 10, 100⟩ [some 10] (some 5) ≠
      create_post_stats ⟨0, 1, 10, 100⟩ [some (-10)] (some 5) := by
  have h1 : (create_post_stats ⟨0, 1, 10, 100⟩ [some 10] (some 5)).win_rate
      = 100 := by
    norm_num [create_post_stats, List.countP_cons, List.countP_nil,
      List.countP_append, Option.isSome]
  have h2 : (create_post_stats ⟨0, 1, 10, 100⟩ [some (-10)] (some 5)).win_rate
      = 50 := by
    norm_num [create_post_stats, List.countP_cons, List.countP_nil,
      List.countP_append, Option.isSome]
  intro h
  rw [h, h2] at h1
  norm_num at h1

/-- Projection of an agent row to the trade-stat fields mutated by
`create_post` (everything except `karma`). -/
def statsOf (a : AgentRec) : Int × ℚ × ℚ :=
  (a.total_trades, a.total_gain_loss_pct, a.win_rate)

theorem findAgent_adjAgent_stats (l : List (Nat × AgentRec)) (aid : Nat)
    (d : Int) (x : Nat) :
    (findAgent (adjAgent l aid d) x).map statsOf =
      (findAgent l x).map statsOf := by
  induction l with
  | nil => rfl
  | cons e t ih =>
    rcases e with ⟨k, ar⟩
    by_cases h : k = aid
    · simp only [adjAgent, List.map_cons]
      rw [if_pos (show ((k, ar) : Nat × AgentRec).1 = aid from h)]
      by_cases hx : k = x
      · have hb : (k == x) = true := by simp [hx]
        simp [findAgent, List.find?_cons, hb, statsOf]
      · have hb : (k == x) = false := by simp [hx]
        simp only [findAgent, List.find?_cons, hb]
        simpa [findAgent, adjAgent] using ih
    · simp only [adjAgent, List.map_cons]
      rw [if_neg (show ¬((k, ar) : Nat × AgentRec).1 = aid from h)]
      by_cases hx : k = x
      · have hb : (k == x) = true := by simp [hx]
        simp [findAgent, List.find?_cons, hb, statsOf]
      · have hb : (k == x) = false := by simp [hx]
        simp only [findAgent, List.find?_cons, hb]
        simpa [findAgent, adjAgent] using ih

theorem upvote_post_agents (voter pid : Nat) (s : DB) (r : Int × Int × Int)
    (s' : DB) (hu : upvote_post voter pid s = some (r, s')) :
    ∃ a d, s'.agents = adjAgent s.agents a d := by
  cases hp : findPost s.posts pid with
  | none => simp [upvote_post, hp] at hu
  | some post =>
    cases hv : findVote s.votes voter pid with
    | none =>
      simp [upvote_post, hp, hv] at hu
      exact ⟨post.agent_id, 1, by rw [← hu.2]⟩
    | some v =>
      by_cases hv1 : v = 1
      · subst hv1
        simp [upvote_post, hp, hv] at hu
        exact ⟨post.agent_id, -1, by rw [← hu.2]⟩
      · simp [upvote_post, hp, hv, hv1] at hu
        exact ⟨post.agent_id, 2, by rw [← hu.2]⟩

theorem downvote_post_agents (voter pid : Nat) (s : DB) (r : Int × Int × Int)
    (s' : DB) (hu : downvote_post voter pid s = some (r, s')) :
    ∃ a d, s'.agents = adjAgent s.agents a d := by
  cases hp : findPost s.posts pid with
  | none => simp [downvote_post, hp] at hu
  | some post =>
    cases hv : findVote s.votes voter pid with
    | none =>
      simp [downvote_post, hp, hv] at hu
      exact ⟨post.agent_id, -1, by rw [← hu.2]⟩
    | some v =>
      by_cases hv1 : v = -1
      · subst hv1
        simp [downvote_post, hp, hv] at hu
        exact ⟨post.agent_id, 1, by rw [← hu.2]⟩
      · simp [downvote_post, hp, hv, hv1] at hu
        exact ⟨post.agent_id, -2, by rw [← hu.2]⟩

theorem stepVote_agent_stats (op : VoteOp) (s : DB) (x : Nat) :
    (findAgent (stepVote op s).agents x).map statsOf =
      (findAgent s.agents x).map statsOf := by
  cases op with
  | up voter pid =>
    cases hu : upvote_post voter pid s with
    | none => simp [stepVote, hu]
    | some p =>
      obtain ⟨a, d, ha⟩ := upvote_post_agents voter pid s p.1 p.2 (by rw [hu])
      have : (stepVote (.up voter pid) s).agents = adjAgent s.agents a d := by
        simpa [stepVote, hu] using ha
      rw [this]
      exact findAgent_adjAgent_stats s.agents a d x
  | down voter pid =>
    cases hu : downvote_post voter pid s with
    | none => simp [stepVote, hu]
    | some p =>
      obtain ⟨a, d, ha⟩ := downvote_post_agents voter pid s p.1 p.2 (by rw [hu])
      have : (stepVote (.down voter pid) s).agents = adjAgent s.agents a d := by
        simpa [stepVote, hu] using ha
      rw [this]
      exact findAgent_adjAgent_stats s.agents a d x

/-- C9 (amended): an agent's `total_trades`, `total_gain_loss_pct` and
`win_rate` are changed only by post creation with a supplied
`gain_loss_pct` — creation without an outcome is the identity on the agent
row, and vote transitions preserve all three fields (they touch only
karma).  `total_trades` and `total_gain_loss_pct` are running aggregates of
the previous field values, but `win_rate` is recomputed from the agent's
full signed-outcome post history (including the new post), not from the
previous field values. -/
theorem agent_stats_update (a : AgentRec) (history : List (Option ℚ)) (g : ℚ)
    (op : VoteOp) (s : DB) (x : Nat) :
    create_post_stats a history none = a ∧
      (create_post_stats a history (some g)).karma = a.karma ∧
      (create_post_stats a history (some g)).total_trades = a.total_trades + 1 ∧
      (create_post_stats a history (some g)).total_gain_loss_pct =
        a.total_gain_loss_pct + g ∧
      (create_post_stats a history (some g)).win_rate =
        (((history ++ [some g]).countP (fun o => match o with
            | some x => decide (0 < x)
            | none => false) : ℚ) /
          ((history ++ [some g]).countP (fun o => o.isSome) : ℚ)) * 100 ∧
      (findAgent (stepVote op s).agents x).map statsOf =
        (findAgent s.agents x).map statsOf := by
  have hpos : 0 < (history ++ [some g]).countP (fun o => o.isSome) := by
    rw [List.countP_append]
    simp [List.countP_cons]
  refine ⟨rfl, ?_, ?_, ?_, ?_, stepVote_agent_stats op s x⟩ <;>
    simp [create_post_stats, hpos]

/-! ### C3: broadcast isolation (`ConnectionManager.broadcast`) -/

/-- Method `ConnectionManager.broadcast` (`src/websocket.py` lines 29-57).
Connections are opaque handles (modelled as `Nat`); `send c` is the result
of `c.send_text(data)`.  The method snapshots the registry, attempts a send
to every snapshot member via `asyncio.gather(..., return_exceptions=True)`
— so every send is attempted and no exception escapes to the caller, which
is why the model is a total function — and then discards every connection
whose send returned an exception.  The value is the list of attempted
`(connection, outcome)` pairs together with the new registry. -/
def broadcast (send : Nat → Except String Unit) (active : List Nat) :
    List (Nat × Except String Unit) × List Nat :=
  let connections := active
  let results := connections.map (fun c => (c, send c))
  let dead := (results.filter (fun r => !r.2.isOk)).map (·.1)
  (results, active.filter (fun c => !(dead.contains c)))

/-- C3: if connection `c`'s send throws while every other registered
connection's send succeeds, `broadcast` still attempts delivery to every
registered connection (each appears in the gathered results with its own
outcome, independent of `c`'s failure), returns normally, and afterwards
`c` is no longer in the registry while every other connection remains. -/
theorem broadcast_isolation (send : Nat → Except String Unit)
    (active : List Nat) (c : Nat) (hc : c ∈ active)
    (hfail : (send c).isOk = false)
    (hok : ∀ c', c' ∈ active → c' ≠ c → (send c').isOk = true) :
    (∀ c', c' ∈ active → (c', send c') ∈ (broadcast send active).1) ∧
      c ∉ (broadcast send active).2 ∧
      ∀ c', c' ∈ active → c' ≠ c → c' ∈ (broadcast send active).2 := by
  refine ⟨?_, ?_, ?_⟩
  · intro c' hc'
    simp only [broadcast]
    exact List.mem_map_of_mem _ hc'
  · intro hmem
    simp only [broadcast, List.mem_filter] at hmem
    have hdead : (List.map (·.1)
        (List.filter (fun r => !r.2.isOk)
          (active.map (fun c => (c, send c))))).contains c = true := by
      have hcmem : (c, send c) ∈
          List.filter (fun r => !r.2.isOk) (active.map (fun c => (c, send c))) := by
        rw [List.mem_filter]
        exact ⟨List.mem_map_of_mem _ hc, by simp [hfail]⟩
      have : c ∈ List.map (·.1)
          (List.filter (fun r => !r.2.isOk) (active.map (fun c => (c, send c)))) :=
        List.mem_map_of_mem _ hcmem
      simpa [List.contains, List.elem_iff] using this
    rw [hdead] at hmem
    simp at hmem
  · intro c' hc' hne
    simp only [broadcast, List.mem_filter]
    refine ⟨hc', ?_⟩
    have : ¬ c' ∈ List.map (·.1)
        (List.filter (fun r => !r.2.isOk) (active.map (fun c => (c, send c)))) := by
      intro hmem
      rcases List.mem_map.mp hmem with ⟨r, hr, hr1⟩
      rw [List.mem_filter] at hr
      rcases List.mem_map.mp hr.1 with ⟨a, ha, har⟩
      have ha1 : a = c' := by rw [← har] at hr1; exact hr1
      subst ha1
      rw [← har] at hr
      have := hok a ha hne
      simp [this] at hr
    simpa [List.contains, List.elem_iff] using this

/-- Witness for C3: three live connections, connection 2 always throws. -/
theorem broadcast_isolation_witness :
    (∀ c', c' ∈ [1, 2, 3] →
        (c', if c' = 2 then (Except.error "boom" : Except String Unit)
             else Except.ok ()) ∈
          (broadcast (fun n => if n = 2 then .error "boom" else .ok ())
            [1, 2, 3]).1) ∧
      2 ∉ (broadcast (fun n => if n = 2 then .error "boom" else .ok ())
            [1, 2, 3]).2 ∧
      ∀ c', c' ∈ [1, 2, 3] → c' ≠ 2 →
        c' ∈ (broadcast (fun n => if n = 2 then .error "boom" else .ok ())
            [1, 2, 3]).2 :=
  broadcast_isolation (fun n => if n = 2 then .error "boom" else .ok ())
    [1, 2, 3] 2 (by decide) (by decide) (by decide)

/-! ### C4: the hot ranking (`get_posts`, `sort == "hot"`) -/

/-- A post as the hot sort sees it: score and creation timestamp in
seconds. -/
structure RPost where
  score : Int
  created_at : ℚ
deriving Repr, DecidableEq

/-- Age `age_hours = max((now - p.created_at).total_seconds() / 3600, 0.1)`
(`src/routers/posts.py` line 149), in exact rational arithmetic. -/
def age_hours (now created : ℚ) : ℚ := max ((now - created) / 3600) (1 / 10)

/-- Key `hot_score(p) = (p.score + 1) / (age_hours ** 1.5)`
(`src/routers/posts.py` line 150); the float power is modelled as the real
power with exponent `1.5 = 3/2`. -/
noncomputable def hot_score (now : ℚ) (p : RPost) : ℝ :=
  ((p.score : ℝ) + 1) / ((age_hours now p.created_at : ℚ) : ℝ) ^ (1.5 : ℝ)

/-- Exact Boolean decision of `y / b^1.5 ≤ x / a^1.5` for positive rational
ages `a`, `b`: sign analysis on the numerators, then cross-multiplied
squares (which removes the half-integer power: `(t^1.5)^2 = t^3`). -/
def keyGeB (x y : Int) (a b : ℚ) : Bool :=
  if 0 ≤ x then
    if y ≤ 0 then true
    else decide ((y : ℚ) ^ 2 * a ^ 3 ≤ (x : ℚ) ^ 2 * b ^ 3)
  else
    if 0 ≤ y then false
    else decide ((x : ℚ) ^ 2 * b ^ 3 ≤ (y : ℚ) ^ 2 * a ^ 3)

/-- Decides `hot_score now q ≤ hot_score now p`. -/
def hotGeB (now : ℚ) (p q : RPost) : Bool :=
  keyGeB (p.score + 1) (q.score + 1) (age_hours now p.created_at)
    (age_hours now q.created_at)

/-- Decides `hot_score now q < hot_score now p`. -/
def hotGtB (now : ℚ) (p q : RPost) : Bool := !(hotGeB now q p)

theorem rpow_sq (a : ℚ) (ha : 0 < a) :
    (((a : ℚ) : ℝ) ^ (1.5 : ℝ)) ^ 2 = ((a : ℚ) : ℝ) ^ 3 := by
  have ha' : (0 : ℝ) ≤ ((a : ℚ) : ℝ) := by exact_mod_cast ha.le
  rw [← Real.rpow_natCast (((a : ℚ) : ℝ) ^ (1.5 : ℝ)) 2, ← Real.rpow_mul ha']
  rw [show (1.5 : ℝ) * ((2 : ℕ) : ℝ) = ((3 : ℕ) : ℝ) by norm_num]
  exact Real.rpow_natCast _ 3

theorem keyGeB_iff (x y : Int) (a b : ℚ) (ha : 0 < a) (hb : 0 < b) :
    keyGeB x y a b = true ↔
      (y : ℝ) / ((b : ℚ) : ℝ) ^ (1.5 : ℝ) ≤ (x : ℝ) / ((a : ℚ) : ℝ) ^ (1.5 : ℝ) := by
  have hA : (0 : ℝ) < ((a : ℚ) : ℝ) ^ (1.5 : ℝ) :=
    Real.rpow_pos_of_pos (by exact_mod_cast ha) _
  have hB : (0 : ℝ) < ((b : ℚ) : ℝ) ^ (1.5 : ℝ) :=
    Real.rpow_pos_of_pos (by exact_mod_cast hb) _
  rw [div_le_div_iff hB hA]
  by_cases h1 : 0 ≤ x
  · by_cases h2 : y ≤ 0
    · simp only [keyGeB, if_pos h1, if_pos h2]
      constructor
      · intro _
        have hy' : (y : ℝ) ≤ 0 := by exact_mod_cast h2
        have hx' : (0 : ℝ) ≤ (x : ℝ) := by exact_mod_cast h1
        have l1 : (y : ℝ) * ((a : ℚ) : ℝ) ^ (1.5 : ℝ) ≤ 0 :=
          mul_nonpos_iff.mpr (Or.inr ⟨hy', hA.le⟩)
        have l2 : 0 ≤ (x : ℝ) * ((b : ℚ) : ℝ) ^ (1.5 : ℝ) :=
          mul_nonneg hx' hB.le
        linarith
      · intro _; trivial
    · push_neg at h2
      simp only [keyGeB, if_pos h1, if_neg (not_le.mpr h2), decide_eq_true_eq]
      have hy' : (0 : ℝ) < (y : ℝ) := by exact_mod_cast h2
      have hx' : (0 : ℝ) ≤ (x : ℝ) := by exact_mod_cast h1
      constructor
      · intro hq
        have hq' : ((y : ℝ)) ^ 2 * ((a : ℚ) : ℝ) ^ 3 ≤
            ((x : ℝ)) ^ 2 * ((b : ℚ) : ℝ) ^ 3 := by exact_mod_cast hq
        have hsq : ((y : ℝ) * ((a : ℚ) : ℝ) ^ (1.5 : ℝ)) ^ 2 ≤
            ((x : ℝ) * ((b : ℚ) : ℝ) ^ (1.5 : ℝ)) ^ 2 := by
          rw [mul_pow, mul_pow, rpow_sq a ha, rpow_sq b hb]
          exact hq'
        exact le_of_pow_le_pow_left two_ne_zero (mul_nonneg hx' hB.le) hsq
      · intro hr
        have hsq : ((y : ℝ) * ((a : ℚ) : ℝ) ^ (1.5 : ℝ)) ^ 2 ≤
            ((x : ℝ) * ((b : ℚ) : ℝ) ^ (1.5 : ℝ)) ^ 2 :=
          pow_le_pow_left (mul_nonneg hy'.le hA.le) hr 2
        rw [mul_pow, mul_pow, rpow_sq a ha, rpow_sq b hb] at hsq
        exact_mod_cast hsq
  · push_neg at h1
    by_cases h2 : 0 ≤ y
    · simp only [keyGeB, if_neg (not_le.mpr h1), if_pos h2,
        Bool.false_eq_true, false_iff, not_le]
      have hx' : (x : ℝ) < 0 := by exact_mod_cast h1
      have hy' : (0 : ℝ) ≤ (y : ℝ) := by exact_mod_cast h2
      have l1 : (x : ℝ) * ((b : ℚ) : ℝ) ^ (1.5 : ℝ) < 0 :=
        mul_neg_of_neg_of_pos hx' hB
      have l2 : 0 ≤ (y : ℝ) * ((a : ℚ) : ℝ) ^ (1.5 : ℝ) :=
        mul_nonneg hy' hA.le
      linarith
    · push_neg at h2
      simp only [keyGeB, if_neg (not_le.mpr h1), if_neg (not_le.mpr h2),
        decide_eq_true_eq]
      have hx' : (x : ℝ) < 0 := by exact_mod_cast h1
      have hy' : (y : ℝ) < 0 := by exact_mod_cast h2
      constructor
      · intro hq
        have hq' : ((x : ℝ)) ^ 2 * ((b : ℚ) : ℝ) ^ 3 ≤
            ((y : ℝ)) ^ 2 * ((a : ℚ) : ℝ) ^ 3 := by exact_mod_cast hq
        have hsq : ((-(x : ℝ)) * ((b : ℚ) : ℝ) ^ (1.5 : ℝ)) ^ 2 ≤
            ((-(y : ℝ)) * ((a : ℚ) : ℝ) ^ (1.5 : ℝ)) ^ 2 := by
          rw [mul_pow, mul_pow, rpow_sq a ha, rpow_sq b hb, neg_sq, neg_sq]
          exact hq'
        have := le_of_pow_le_pow_left two_ne_zero
          (mul_nonneg (by linarith) hA.le) hsq
        linarith
      · intro hr
        have hneg : (-(x : ℝ)) * ((b : ℚ) : ℝ) ^ (1.5 : ℝ) ≤
            (-(y : ℝ)) * ((a : ℚ) : ℝ) ^ (1.5 : ℝ) := by linarith
        have hsq := pow_le_pow_left
          (mul_nonneg (by linarith) hB.le) hneg 2
        rw [mul_pow, mul_pow, rpow_sq a ha, rpow_sq b hb, neg_sq, neg_sq] at hsq
        exact_mod_cast hsq

theorem age_hours_pos (now created : ℚ) : 0 < age_hours now created :=
  lt_of_lt_of_le (by norm_num) (le_max_right _ _)

theorem hotGeB_iff (now : ℚ) (p q : RPost) :
    hotGeB now p q = true ↔ hot_score now q ≤ hot_score now p := by
  rw [hotGeB, hot_score, hot_score,
    keyGeB_iff _ _ _ _ (age_hours_pos now p.created_at)
      (age_hours_pos now q.created_at)]
  push_cast
  rfl

theorem hotGtB_iff (now : ℚ) (p q : RPost) :
    hotGtB now p q = true ↔ hot_score now q < hot_score now p := by
  have h := hotGeB_iff now q p
  rw [hotGtB, lt_iff_not_le, ← h]
  cases hotGeB now q p <;> simp

/-- Stable insertion of `x` behind every already-placed element not
strictly below it. -/
def insertBy {α : Type} (gt : α → α → Bool) (x : α) : List α → List α
  | [] => [x]
  | y :: ys => if gt x y then x :: y :: ys else y :: insertBy gt x ys

/-- Sort `posts_all.sort(key=hot_score, reverse=True)` (`src/routers/posts.py`
line 152): a stable descending sort.  Python's sort is stable, and any two
stable sorts under the same comparator agree, so a stable insertion sort
is an extensionally faithful model. -/
def sortBy {α : Type} (gt : α → α → Bool) (l : List α) : List α :=
  l.foldl (fun acc x => insertBy gt x acc) []

/-- The hot ordering over the candidate list (which `get_posts` loads
ordered by `created_at` descending). -/
def rank_hot (now : ℚ) (l : List RPost) : List RPost := sortBy (hotGtB now) l

theorem mem_insertBy {α : Type} (gt : α → α → Bool) (x : α) (l : List α)
    (z : α) : z ∈ insertBy gt x l ↔ z = x ∨ z ∈ l := by
  induction l with
  | nil => simp [insertBy]
  | cons y ys ih =>
    by_cases h : gt x y
    · simp only [insertBy, if_pos h, List.mem_cons]
    · simp only [insertBy, if_neg h, List.mem_cons, ih]
      tauto

theorem pairwise_ge_insertBy {α : Type} (k : α → ℝ) (gt : α → α → Bool)
    (hgt : ∀ a b, gt a b = true ↔ k b < k a) (x : α) (l : List α)
    (hl : l.Pairwise (fun a b => k b ≤ k a)) :
    (insertBy gt x l).Pairwise (fun a b => k b ≤ k a) := by
  induction l with
  | nil => simp [insertBy]
  | cons y ys ih =>
    rw [List.pairwise_cons] at hl
    by_cases h : gt x y
    · simp only [insertBy, if_pos h]
      rw [List.pairwise_cons]
      refine ⟨?_, ?_⟩
      · intro z hz
        rcases List.mem_cons.mp hz with rfl | hz'
        · exact le_of_lt ((hgt x z).mp h)
        · exact le_trans (hl.1 z hz') (le_of_lt ((hgt x y).mp h))
      · rw [List.pairwise_cons]; exact hl
    · simp only [insertBy, if_neg h]
      rw [List.pairwise_cons]
      refine ⟨?_, ?_⟩
      · intro z hz
        rcases (mem_insertBy gt x ys z).mp hz with rfl | hz'
        · exact not_lt.mp (fun hc => h ((hgt z y).mpr hc))
        · exact hl.1 z hz'
      · exact ih hl.2

theorem pairwise_ge_sortBy {α : Type} (k : α → ℝ) (gt : α → α → Bool)
    (hgt : ∀ a b, gt a b = true ↔ k b < k a) (l : List α) :
    (sortBy gt l).Pairwise (fun a b => k b ≤ k a) := by
  suffices h : ∀ (ll acc : List α), acc.Pairwise (fun a b => k b ≤ k a) →
      (ll.foldl (fun acc x => insertBy gt x acc) acc).Pairwise
        (fun a b => k b ≤ k a) by
    exact h l [] (by simp)
  intro ll
  induction ll with
  | nil => intro acc hacc; exact hacc
  | cons x xs ih =>
    intro acc hacc
    exact ih _ (pairwise_ge_insertBy k gt hgt x acc hacc)

theorem pairwise_tie_insertBy {α : Type} (k : α → ℝ) (gt : α → α → Bool)
    (R : α → α → Prop) (hgt : ∀ a b, gt a b = true ↔ k b < k a) (x : α)
    (l : List α) (hge : l.Pairwise (fun a b => k b ≤ k a))
    (hS : l.Pairwise (fun a b => k b < k a ∨ (k a = k b ∧ R a b)))
    (hR : ∀ y ∈ l, R y x) :
    (insertBy gt x l).Pairwise
      (fun a b => k b < k a ∨ (k a = k b ∧ R a b)) := by
  induction l with
  | nil => simp [insertBy]
  | cons y ys ih =>
    rw [List.pairwise_cons] at hge hS
    by_cases h : gt x y
    · simp only [insertBy, if_pos h]
      rw [List.pairwise_cons]
      refine ⟨?_, ?_⟩
      · intro z hz
        rcases List.mem_cons.mp hz with rfl | hz'
        · exact Or.inl ((hgt x z).mp h)
        · exact Or.inl (lt_of_le_of_lt (hge.1 z hz') ((hgt x y).mp h))
      · rw [List.pairwise_cons]; exact hS
    · simp only [insertBy, if_neg h]
      rw [List.pairwise_cons]
      refine ⟨?_, ?_⟩
      · intro z hz
        rcases (mem_insertBy gt x ys z).mp hz with rfl | hz'
        · have hxy : k z ≤ k y := not_lt.mp (fun hc => h ((hgt z y).mpr hc))
          rcases lt_or_eq_of_le hxy with hlt | heq
          · exact Or.inl hlt
          · exact Or.inr ⟨heq.symm, hR y (by simp)⟩
        · exact hS.1 z hz'
      · exact ih hge.2 hS.2 (fun z hz => hR z (by simp [hz]))

theorem pairwise_tie_sortBy {α : Type} (k : α → ℝ) (gt : α → α → Bool)
    (R : α → α → Prop) (hgt : ∀ a b, gt a b = true ↔ k b < k a)
    (l : List α) (hl : l.Pairwise R) :
    (sortBy gt l).Pairwise
      (fun a b => k b < k a ∨ (k a = k b ∧ R a b)) := by
  suffices h : ∀ (ll acc : List α), acc.Pairwise (fun a b => k b ≤ k a) →
      acc.Pairwise (fun a b => k b < k a ∨ (k a = k b ∧ R a b)) →
      (∀ y ∈ acc, ∀ x ∈ ll, R y x) → ll.Pairwise R →
      (ll.foldl (fun acc x => insertBy gt x acc) acc).Pairwise
        (fun a b => k b < k a ∨ (k a = k b ∧ R a b)) by
    exact h l [] (by simp) (by simp) (by simp) hl
  intro ll
  induction ll with
  | nil => intro acc _ hS _ _; exact hS
  | cons x xs ih =>
    intro acc hge hS hcross hR
    rw [List.pairwise_cons] at hR
    apply ih
    · exact pairwise_ge_insertBy k gt hgt x acc hge
    · exact pairwise_tie_insertBy k gt R hgt x acc hge hS
        (fun y hy => hcross y hy x (by simp))
    · intro y hy z hz
      rcases (mem_insertBy gt x acc y).mp hy with rfl | hy'
      · exact hR.1 z hz
      · exact hcross y hy' z (by simp [hz])
    · exact hR.2

/-- C4: on a candidate list ordered by `created_at` descending (exactly
what `get_posts` feeds the sort), the hot ordering is sorted by descending
`hot_score = (score + 1) / age_hours^1.5` (with `age_hours` floored at
0.1), and any two posts with equal keys stay ordered most-recent-first
(stability of the sort over the recency-ordered input). -/
theorem hot_ranking_order (now : ℚ) (l : List RPost)
    (hrec : l.Pairwise (fun p q => q.created_at ≤ p.created_at)) :
    (rank_hot now l).Pairwise
        (fun p q => hot_score now q ≤ hot_score now p) ∧
      (rank_hot now l).Pairwise (fun p q =>
        hot_score now q < hot_score now p ∨
          (hot_score now p = hot_score now q ∧
            q.created_at ≤ p.created_at)) :=
  ⟨pairwise_ge_sortBy (hot_score now) (hotGtB now) (hotGtB_iff now) l,
   pairwise_tie_sortBy (hot_score now) (hotGtB now) _ (hotGtB_iff now) l hrec⟩

/-- Witness for C4: at `now = 172800` s, a post of score 10 created at
169200 s (age 1 h) and one created at 0 s (age 48 h); the ordering
properties hold and the younger post ranks first. -/
theorem hot_ranking_order_witness :
    ((rank_hot 172800 [⟨10, 169200⟩, ⟨10, 0⟩]).Pairwise
        (fun p q => hot_score 172800 q ≤ hot_score 172800 p) ∧
      (rank_hot 172800 [⟨10, 169200⟩, ⟨10, 0⟩]).Pairwise (fun p q =>
        hot_score 172800 q < hot_score 172800 p ∨
          (hot_score 172800 p = hot_score 172800 q ∧
            q.created_at ≤ p.created_at))) ∧
      rank_hot 172800 [⟨10, 169200⟩, ⟨10, 0⟩] = [⟨10, 169200⟩, ⟨10, 0⟩] := by
  constructor
  · exact hot_ranking_order 172800 _ (by
      rw [List.pairwise_cons]
      refine ⟨?_, by simp⟩
      intro q hq
      simp only [List.mem_singleton] at hq
      subst hq
      norm_num)
  · have hga : age_hours 172800 169200 = 1 := by
      rw [age_hours, show ((172800 : ℚ) - 169200) / 3600 = 1 by norm_num]
      rw [max_eq_left (by norm_num)]
    have hgb : age_hours 172800 0 = 48 := by
      rw [age_hours, show ((172800 : ℚ) - 0) / 3600 = 48 by norm_num]
      rw [max_eq_left (by norm_num)]
    have hge : hotGeB 172800 (⟨10, 169200⟩ : RPost) ⟨10, 0⟩ = true := by
      unfold hotGeB
      dsimp only
      rw [hga, hgb]
      unfold keyGeB
      norm_num
    have h1 : hotGtB 172800 (⟨10, 0⟩ : RPost) ⟨10, 169200⟩ = false := by
      unfold hotGtB
      rw [hge]
      rfl
    simp [rank_hot, sortBy, insertBy, h1]

/-! ### Strings as codepoint lists, for the ticker endpoints -/

/-- Python strings modelled as lists of Unicode codepoints. -/
abbrev Str := List Nat

/-- Codepoints of a Lean string literal, for concrete examples. -/
def strOf (s : String) : Str := s.data.map Char.toNat

/-- ASCII whitespace, as removed by `str.strip()`. -/
def isWS (n : Nat) : Bool :=
  n == 32 || n == 9 || n == 10 || n == 13 || n == 11 || n == 12

/-- Python `str.strip()`: drop leading and trailing whitespace. -/
def strip (s : Str) : Str :=
  ((s.dropWhile isWS).reverse.dropWhile isWS).reverse

/-- Python `str.upper()` on one codepoint (ASCII letters; other codepoints
unchanged). -/
def upc (n : Nat) : Nat := if 97 ≤ n ∧ n ≤ 122 then n - 32 else n

/-- Python `str.upper()`. -/
def upper (s : Str) : Str := s.map upc

/-- Split `s.split(",")`, Python semantics: every comma separates, empty pieces
are kept, `"".split(",") == [""]`. -/
def splitCommaAux : Str → Str → List Str
  | [], acc => [acc.reverse]
  | c :: cs, acc =>
    if c = 44 then acc.reverse :: splitCommaAux cs []
    else splitCommaAux cs (c :: acc)

def splitComma (s : Str) : List Str := splitCommaAux s []

/-- A post as the ticker endpoints see it: the raw `tickers` column (a SQL
`NULL`, which the loops skip, is modelled as the empty string),
`position_type`, optional `gain_loss_pct`, and `score`. -/
structure TPost where
  tickers : Str
  position_type : Option Str
  gain_loss_pct : Option ℚ
  score : Int
deriving Repr, DecidableEq

/-! ### C5: trending sentiment (`_build_trending`) -/

/-- Comprehension `[t.strip().upper() for t in post.tickers.split(",") if t.strip()]`
(`src/routers/tickers.py` line 76). -/
def parsedTickers (s : Str) : List Str :=
  ((splitComma s).filter (fun t => !(strip t).isEmpty)).map
    (fun t => upper (strip t))

/-- The per-ticker accumulator of `_build_trending`. -/
structure TAgg where
  mention_count : Nat
  gain_losses : List ℚ
  total_score : Int
  bullish_count : Nat
  bearish_count : Nat
deriving Repr, DecidableEq

def emptyAgg : TAgg := ⟨0, [], 0, 0, 0⟩

/-- Test `post.position_type in ("long", "calls")`. -/
def isBullishPos (pt : Option Str) : Bool :=
  pt == some (strOf "long") || pt == some (strOf "calls")

/-- Test `post.position_type in ("short", "puts")`. -/
def isBearishPos (pt : Option Str) : Bool :=
  pt == some (strOf "short") || pt == some (strOf "puts")

/-- One iteration of the inner loop of `_build_trending`
(`src/routers/tickers.py` lines 78-85) for one ticker occurrence. -/
def bumpAgg (p : TPost) (a : TAgg) : TAgg :=
  let a1 := { a with mention_count := a.mention_count + 1,
                     total_score := a.total_score + p.score }
  let a2 := match p.gain_loss_pct with
    | some g => { a1 with gain_losses := a1.gain_losses ++ [g] }
    | none => a1
  if isBullishPos p.position_type then
    { a2 with bullish_count := a2.bullish_count + 1 }
  else if isBearishPos p.position_type then
    { a2 with bearish_count := a2.bearish_count + 1 }
  else a2

def getAgg (m : List (Str × TAgg)) (t : Str) : Option TAgg :=
  (m.find? (fun e => e.1 == t)).map (·.2)

/-- Python `defaultdict` entry update: mutate in place, or append a new key in
insertion order. -/
def setAgg (m : List (Str × TAgg)) (t : Str) (a : TAgg) : List (Str × TAgg) :=
  if m.any (fun e => e.1 == t) then
    m.map (fun e => if e.1 == t then (e.1, a) else e)
  else m ++ [(t, a)]

/-- The accumulation loops of `_build_trending`
(`src/routers/tickers.py` lines 71-85). -/
def build_trending_data (posts : List TPost) : List (Str × TAgg) :=
  posts.foldl
    (fun m p => (parsedTickers p.tickers).foldl
      (fun m t => setAgg m t (bumpAgg p ((getAgg m t).getD emptyAgg))) m)
    []

inductive Sentiment where
  | bullish
  | bearish
  | neutral
deriving Repr, DecidableEq

/-- Mean `avg_gain = sum(gain_losses) / len(gain_losses)` when the list is
non-empty, else `None`. -/
def avgGain (l : List ℚ) : Option ℚ :=
  if l.isEmpty then none else some (l.sum / l.length)

/-- The sentiment chain of `_build_trending`
(`src/routers/tickers.py` lines 92-101). -/
def sentimentOf (a : TAgg) : Sentiment :=
  if a.bullish_count > a.bearish_count then .bullish
  else if a.bearish_count > a.bullish_count then .bearish
  else
    match avgGain a.gain_losses with
    | some g => if g ≥ 5 then .bullish else if g ≤ -5 then .bearish else .neutral
    | none => .neutral

/-- The spec's sentiment resolution order, written from §4.3's words:
(1) bullish-count majority → bullish; (2) bearish-count majority →
bearish; (3) mean outcome exists and is ≥ +5 → bullish, ≤ −5 → bearish;
(4) otherwise neutral. -/
def specSentiment (bullishCount bearishCount : Nat)
    (meanOutcome : Option ℚ) : Sentiment :=
  if bullishCount > bearishCount then .bullish
  else if bearishCount > bullishCount then .bearish
  else
    match meanOutcome with
    | some m => if m ≥ 5 then .bullish else if m ≤ -5 then .bearish else .neutral
    | none => .neutral

/-- C5: every ticker aggregated by `_build_trending` resolves its
sentiment by the spec's exact order applied to its tallied bullish count,
bearish count, and mean outcome percentage; in particular three `TSLA`
posts with directions long, long, short come out bullish for arbitrary
outcome percentages. -/
theorem trending_sentiment_order :
    (∀ (posts : List TPost) (t : Str) (a : TAgg),
        getAgg (build_trending_data posts) t = some a →
        sentimentOf a =
          specSentiment a.bullish_count a.bearish_count
            (avgGain a.gain_losses)) ∧
      ∀ g1 g2 g3 : ℚ,
        (getAgg (build_trending_data
            [⟨strOf "TSLA", some (strOf "long"), some g1, 0⟩,
             ⟨strOf "TSLA", some (strOf "long"), some g2, 0⟩,
             ⟨strOf "TSLA", some (strOf "short"), some g3, 0⟩])
          (strOf "TSLA")).map sentimentOf = some .bullish := by
  constructor
  · intro posts t a _
    rfl
  · intro g1 g2 g3
    rfl

/-- Witness for C5 at a concrete post list and aggregate. -/
theorem trending_sentiment_order_witness :
    sentimentOf ⟨3, [1, 2, 3], 0, 2, 1⟩ =
      specSentiment 2 1 (avgGain [1, 2, 3]) :=
  trending_sentiment_order.1
    [⟨strOf "TSLA", some (strOf "long"), some 1, 0⟩,
     ⟨strOf "TSLA", some (strOf "long"), some 2, 0⟩,
     ⟨strOf "TSLA", some (strOf "short"), some 3, 0⟩]
    (strOf "TSLA") ⟨3, [1, 2, 3], 0, 2, 1⟩ (by rfl)

/-! ### C6: single-ticker exact match (`get_ticker`) -/

/-- Comprehension `[t.strip().upper() for t in post.tickers.split(",")]`
(`src/routers/tickers.py` line 152): empties are kept here. -/
def postTickers (s : Str) : List Str :=
  (splitComma s).map (fun t => upper (strip t))

def isPrefixB : Str → Str → Bool
  | [], _ => true
  | _ :: _, [] => false
  | a :: as, b :: bs => a == b && isPrefixB as bs

/-- Contiguous substring test. -/
def substrB (pat : Str) : Str → Bool
  | [] => pat.isEmpty
  | b :: bs => isPrefixB pat (b :: bs) || substrB pat bs

/-- Query `Post.tickers.ilike(f"%{ticker}%")`: case-insensitive containment. -/
def ilikeB (pat s : Str) : Bool := substrB (upper pat) (upper s)

/-- The filtering of `get_ticker` (`src/routers/tickers.py` lines
146-154): uppercase the query, prefilter by the SQL `ilike` substring
match, then keep the posts whose truthy tickers field splits to a list
containing the query exactly. -/
def get_ticker_posts (ticker0 : Str) (posts : List TPost) : List TPost :=
  (posts.filter (fun p => ilikeB (upper ticker0) p.tickers)).filter
    (fun p => !p.tickers.isEmpty &&
      (postTickers p.tickers).contains (upper ticker0))

theorem isPrefixB_append (p r : Str) : isPrefixB p (p ++ r) = true := by
  induction p with
  | nil => rfl
  | cons a as ih => simp [isPrefixB, ih]

theorem substrB_nil_pat (s : Str) : substrB [] s = true := by
  cases s with
  | nil => rfl
  | cons b bs => simp [substrB, isPrefixB]

theorem substrB_middle (L pat R : Str) : substrB pat (L ++ (pat ++ R)) = true := by
  induction L with
  | nil =>
    cases pat with
    | nil => simpa using substrB_nil_pat R
    | cons a as =>
      have h := isPrefixB_append (a :: as) R
      simp only [List.cons_append, List.nil_append] at h ⊢
      simp [substrB, h]
  | cons x xs ih =>
    simp only [List.cons_append, substrB, List.append_eq, ih, Bool.or_true]

theorem substr_of_decomp (pat L R s : Str) (hs : s = L ++ (pat ++ R)) :
    substrB pat s = true := by
  rw [hs]; exact substrB_middle L pat R

theorem splitCommaAux_decomp (cs : Str) :
    ∀ acc e, e ∈ splitCommaAux cs acc →
      ∃ l r, acc.reverse ++ cs = l ++ (e ++ r) := by
  induction cs with
  | nil =>
    intro acc e he
    simp only [splitCommaAux, List.mem_singleton] at he
    subst he
    exact ⟨[], [], by simp⟩
  | cons c cs' ih =>
    intro acc e he
    by_cases hc : c = 44
    · rw [splitCommaAux, if_pos hc] at he
      rcases List.mem_cons.mp he with rfl | he'
      · exact ⟨[], c :: cs', by simp⟩
      · rcases ih [] e he' with ⟨l, r, hl⟩
        simp only [List.reverse_nil, List.nil_append] at hl
        refine ⟨acc.reverse ++ [c] ++ l, r, ?_⟩
        rw [show acc.reverse ++ (c :: cs') = (acc.reverse ++ [c]) ++ cs' by simp]
        rw [hl]
        simp [List.append_assoc]
    · rw [splitCommaAux, if_neg hc] at he
      rcases ih (c :: acc) e he with ⟨l, r, hl⟩
      simp only [List.reverse_cons] at hl
      exact ⟨l, r, by
        rw [show acc.reverse ++ (c :: cs') = (acc.reverse ++ [c]) ++ cs' by simp]
        exact hl⟩

theorem splitComma_decomp (s e : Str) (he : e ∈ splitComma s) :
    ∃ l r, s = l ++ (e ++ r) := by
  rcases splitCommaAux_decomp s [] e he with ⟨l, r, hl⟩
  simp only [List.reverse_nil, List.nil_append] at hl
  exact ⟨l, r, hl⟩

theorem strip_decomp (s : Str) : ∃ l r, s = l ++ (strip s ++ r) := by
  refine ⟨s.takeWhile isWS,
    ((s.dropWhile isWS).reverse.takeWhile isWS).reverse, ?_⟩
  have h1 : s.takeWhile isWS ++ s.dropWhile isWS = s :=
    List.takeWhile_append_dropWhile isWS s
  have h2 : (s.dropWhile isWS).reverse.takeWhile isWS ++
      (s.dropWhile isWS).reverse.dropWhile isWS = (s.dropWhile isWS).reverse :=
    List.takeWhile_append_dropWhile isWS (s.dropWhile isWS).reverse
  have h3 : s.dropWhile isWS =
      strip s ++ ((s.dropWhile isWS).reverse.takeWhile isWS).reverse := by
    have h4 := congrArg List.reverse h2
    rw [List.reverse_reverse, List.reverse_append] at h4
    exact h4.symm
  conv_lhs => rw [← h1, h3]

theorem upc_idem (n : Nat) : upc (upc n) = upc n := by
  unfold upc
  split_ifs <;> omega

theorem upper_idem (s : Str) : upper (upper s) = upper s := by
  induction s with
  | nil => rfl
  | cons c cs ih =>
    simp only [upper, List.map_cons] at ih ⊢
    rw [upc_idem]
    exact congrArg₂ List.cons rfl ih

theorem upper_append (l r : Str) : upper (l ++ r) = upper l ++ upper r :=
  List.map_append upc l r

/-- An exact member of the parsed tickers list is found by the
case-insensitive `ilike` substring prefilter. -/
theorem mem_postTickers_ilike (ticker0 s : Str)
    (h : upper ticker0 ∈ postTickers s) : ilikeB (upper ticker0) s = true := by
  rcases List.mem_map.mp h with ⟨e, he, hfe⟩
  rcases splitComma_decomp s e he with ⟨l, r, hs⟩
  rcases strip_decomp e with ⟨l', r', he'⟩
  unfold ilikeB
  rw [upper_idem, ← hfe]
  apply substr_of_decomp (upper (strip e)) (upper l ++ upper l')
    (upper r' ++ upper r)
  rw [hs]
  conv_lhs => rw [he']
  simp [upper_append, List.append_assoc]

/-- C6: for a non-empty query, `get_ticker` returns exactly the posts
whose comma-split, trimmed, uppercased tickers list contains the
uppercased query as a whole element: the `ilike` substring prefilter
admits every exact match, and a post merely containing the query inside a
longer symbol fails the exact-membership filter. -/
theorem get_ticker_exact_match (ticker0 : Str) (posts : List TPost)
    (h0 : ticker0 ≠ []) :
    get_ticker_posts ticker0 posts =
      posts.filter
        (fun p => (postTickers p.tickers).contains (upper ticker0)) := by
  unfold get_ticker_posts
  rw [List.filter_filter]
  apply List.filter_congr
  intro p _
  by_cases hmem : upper ticker0 ∈ postTickers p.tickers
  · have hil := mem_postTickers_ilike ticker0 p.tickers hmem
    have hne : p.tickers.isEmpty = false := by
      rcases hemp : p.tickers with _ | ⟨c, cs⟩
      · exfalso
        rw [hemp] at hmem
        have hpt : postTickers ([] : Str) = [[]] := rfl
        rw [hpt] at hmem
        simp only [List.mem_singleton] at hmem
        exact h0 (List.map_eq_nil.mp hmem)
      · rfl
    have hcon : (postTickers p.tickers).contains (upper ticker0) = true := by
      simp [List.contains, List.elem_iff, hmem]
    simp [hil, hne, hcon]
  · have hcon : (postTickers p.tickers).contains (upper ticker0) = false := by
      rw [← Bool.not_eq_true]
      intro hc
      apply hmem
      simpa [List.contains, List.elem_iff] using hc
    simp [hmem]

/-- Witness for C6: a post tagged `AAPL` does not appear in a query for
ticker `A`. -/
theorem get_ticker_exact_match_witness :
    get_ticker_posts (strOf "A") [⟨strOf "AAPL", none, none, 0⟩] =
        List.filter
          (fun p => (postTickers p.tickers).contains (upper (strOf "A")))
          [⟨strOf "AAPL", none, none, 0⟩] ∧
      get_ticker_posts (strOf "A") [⟨strOf "AAPL", none, none, 0⟩] = [] :=
  ⟨get_ticker_exact_match (strOf "A") [⟨strOf "AAPL", none, none, 0⟩]
      (by decide),
   by rfl⟩

end CSB
